import Mathlib

set_option maxHeartbeats 1000000

/-!
Verification of the neo-console memory-bridge core against its specification.

The Python sources are shallowly embedded:
  * `memome_codex.parse_dna_sequence`  → `parse_dna_sequence` (strings as `List Char`)
  * `weaver_engine.WeaverEngine`       → `select_parents`, the codon pipeline of
    `reproduce` (`offspring_codons_premutation`, `mutate_codons`), and the DNA
    rendering `dnaRender`
  * `conversation_cortex_v2.ConversationCortexV2` → `dream_cycle`, `_link_resonant`
    (`link_resonant`), `_smart_recall` (`smart_recall_calls`)
Floats are modelled as rationals; Python exceptions as `Option`/`Except`;
randomness (random.sample / random.random / random.choice) as injected
parameters, following the spec's own design note on seeded random sources.
-/

/-- Whitespace test matching Python str.strip's default character set. -/
def pySpace (c : Char) : Bool :=
  c == ' ' || c == '\t' || c == '\n' || c == '\r' || c == '\x0b' || c == '\x0c'

/-- Python str.strip: drop whitespace from both ends. -/
def pyStrip (l : List Char) : List Char :=
  ((l.dropWhile pySpace).reverse.dropWhile pySpace).reverse

/-- Python str.split(sep) for a single-character separator: split at every
occurrence, keeping empty pieces; always returns at least one piece. -/
def splitOnChar (sep : Char) : List Char → List (List Char)
  | [] => [[]]
  | c :: cs =>
    match splitOnChar sep cs with
    | [] => [[c]]
    | p :: ps => if c = sep then [] :: p :: ps else (c :: p) :: ps

/-- Python "sep".join(xs) for a single-character separator. -/
def joinSep (sep : Char) : List (List Char) → List Char
  | [] => []
  | [x] => x
  | x :: y :: ys => x ++ sep :: joinSep sep (y :: ys)

/-- Consume a literal prefix: `stripLit p s = some r` iff `s = p ++ r`. -/
def stripLit : List Char → List Char → Option (List Char)
  | [], s => some s
  | _ :: _, [] => none
  | p :: ps, c :: cs => if c = p then stripLit ps cs else none

/-- Parsed representation of a memory's DNA sequence
(memome_codex.py, class ParsedDNA). -/
structure ParsedDNA where
  core_concept : List Char
  codons : List (List Char)
  raw_sequence : List Char
deriving DecidableEq, Repr

/-- Embedding of memome_codex.parse_dna_sequence: Python
re.match applied to the pattern matching "(concept)::" then the codon block
in braces.  re.match anchors at the start only, so trailing characters after
the closing brace are accepted.  The two regex groups are the maximal runs of
non-')' / non-'}' characters, both required nonempty; codons are the pieces of
the second group split on '|', each stripped of surrounding whitespace.
A `none` result models the ValueError (MalformedSequence) raise. -/
def parse_dna_sequence (s : List Char) : Option ParsedDNA :=
  (stripLit ['('] s).bind fun rest =>
    (stripLit [')', ':', ':', '\x7b'] (rest.dropWhile (fun ch => ch != ')'))).bind fun rest2 =>
      (stripLit ['\x7d'] (rest2.dropWhile (fun ch => ch != '\x7d'))).bind fun _ =>
        if (rest.takeWhile (fun ch => ch != ')')).isEmpty
            || (rest2.takeWhile (fun ch => ch != '\x7d')).isEmpty then none
        else some ⟨rest.takeWhile (fun ch => ch != ')'),
                   (splitOnChar '|' (rest2.takeWhile (fun ch => ch != '\x7d'))).map pyStrip, s⟩

/-- Rendering of a parsed DNA back to text, as weaver_engine.reproduce does:
the concept in parentheses, "::", then the codons joined by '|' inside
braces. -/
def dnaRender (concept : List Char) (codons : List (List Char)) : List Char :=
  '(' :: (concept ++ ')' :: ':' :: ':' :: '\x7b' :: (joinSep '|' codons ++ ['\x7d']))

/-- Spec-side predicate, following the spec's words: the input's outer shape is
exactly "(…)::" followed by a braced block — the whole string matches, with a
nonempty concept (no ')') and a nonempty codon block (no '}'). -/
def SpecOuterShape (s : List Char) : Prop :=
  ∃ c b : List Char, c ≠ [] ∧ ')' ∉ c ∧ b ≠ [] ∧ '\x7d' ∉ b ∧
    s = '(' :: (c ++ ')' :: ':' :: ':' :: '\x7b' :: (b ++ ['\x7d']))

/-- Prefix variant of the outer shape: the input starts with the
"(…)::" + braced-block shape, arbitrary trailing characters allowed.  This is
what Python's re.match actually tests. -/
def MatchOuterShape (s : List Char) : Prop :=
  ∃ c b t : List Char, c ≠ [] ∧ ')' ∉ c ∧ b ≠ [] ∧ '\x7d' ∉ b ∧
    s = '(' :: (c ++ ')' :: ':' :: ':' :: '\x7b' :: (b ++ '\x7d' :: t))

theorem stripLit_self_append (p r : List Char) : stripLit p (p ++ r) = some r := by
  induction p with
  | nil => rfl
  | cons c cs ih => simp [stripLit, ih]

theorem stripLit_eq_some {p s r : List Char} (h : stripLit p s = some r) :
    s = p ++ r := by
  induction p generalizing s with
  | nil => simpa [stripLit, eq_comm] using h.symm
  | cons c cs ih =>
    cases s with
    | nil => simp [stripLit] at h
    | cons d ds =>
      by_cases hd : d = c
      · subst hd
        simp only [stripLit, if_pos rfl] at h
        simpa using ih h
      · simp [stripLit, hd] at h

theorem takeWhile_all_append {p : Char → Bool} {l : List Char} (r : List Char)
    (h : ∀ x ∈ l, p x = true) : (l ++ r).takeWhile p = l ++ r.takeWhile p := by
  induction l with
  | nil => simp
  | cons c cs ih =>
    have hc : p c = true := h c (by simp)
    simp only [List.cons_append, List.takeWhile_cons, hc, if_true]
    rw [ih (fun x hx => h x (by simp [hx]))]

theorem dropWhile_all_append {p : Char → Bool} {l : List Char} (r : List Char)
    (h : ∀ x ∈ l, p x = true) : (l ++ r).dropWhile p = r.dropWhile p := by
  induction l with
  | nil => simp
  | cons c cs ih =>
    have hc : p c = true := h c (by simp)
    simp only [List.cons_append, List.dropWhile_cons, hc, if_true]
    exact ih (fun x hx => h x (by simp [hx]))

theorem takeWhile_cons_neg {p : Char → Bool} {d : Char} (r : List Char)
    (h : p d = false) : (d :: r).takeWhile p = [] := by
  simp [List.takeWhile_cons, h]

theorem dropWhile_cons_neg {p : Char → Bool} {d : Char} (r : List Char)
    (h : p d = false) : (d :: r).dropWhile p = d :: r := by
  simp [List.dropWhile_cons, h]

theorem stripLit_one (a : Char) (r : List Char) : stripLit [a] (a :: r) = some r := by
  simp [stripLit]

theorem stripLit_four (a b c d : Char) (r : List Char) :
    stripLit [a, b, c, d] (a :: b :: c :: d :: r) = some r := by
  simp [stripLit]

theorem dropWhile_hit_rparen (r : List Char) :
    List.dropWhile (fun ch => ch != ')') (')' :: r) = ')' :: r := by
  simp [List.dropWhile_cons]

theorem takeWhile_hit_rparen (r : List Char) :
    List.takeWhile (fun ch => ch != ')') (')' :: r) = [] := by
  simp [List.takeWhile_cons]

theorem dropWhile_hit_rbrace (r : List Char) :
    List.dropWhile (fun ch => ch != '\x7d') ('\x7d' :: r) = '\x7d' :: r := by
  simp [List.dropWhile_cons]

theorem takeWhile_hit_rbrace (r : List Char) :
    List.takeWhile (fun ch => ch != '\x7d') ('\x7d' :: r) = [] := by
  simp [List.takeWhile_cons]

/-- Evaluation of the parser on any input beginning with the matched shape:
the regex groups come back exactly, with arbitrary trailing text. -/
theorem parse_shaped (c b t : List Char) (hc : c ≠ []) (hcn : ')' ∉ c)
    (hb : b ≠ []) (hbn : '\x7d' ∉ b) :
    parse_dna_sequence ('(' :: (c ++ ')' :: ':' :: ':' :: '\x7b' :: (b ++ '\x7d' :: t)))
      = some ⟨c, (splitOnChar '|' b).map pyStrip,
              '(' :: (c ++ ')' :: ':' :: ':' :: '\x7b' :: (b ++ '\x7d' :: t))⟩ := by
  have hc1 : ∀ x ∈ c, ((x != ')') : Bool) = true := by
    intro x hx
    simpa [bne_iff_ne] using ne_of_mem_of_not_mem hx hcn
  have hb1 : ∀ x ∈ b, ((x != '\x7d') : Bool) = true := by
    intro x hx
    simpa [bne_iff_ne] using ne_of_mem_of_not_mem hx hbn
  unfold parse_dna_sequence
  rw [stripLit_one, Option.some_bind']
  rw [dropWhile_all_append _ hc1, dropWhile_hit_rparen, stripLit_four, Option.some_bind']
  rw [dropWhile_all_append _ hb1, dropWhile_hit_rbrace, stripLit_one, Option.some_bind']
  rw [takeWhile_all_append _ hc1, takeWhile_hit_rparen,
      takeWhile_all_append _ hb1, takeWhile_hit_rbrace]
  simp [List.isEmpty_iff, hc, hb]

/-- A successful parse exposes the start-anchored match shape of the input. -/
theorem parse_some_shape {s : List Char} {p : ParsedDNA}
    (h : parse_dna_sequence s = some p) : MatchOuterShape s := by
  unfold parse_dna_sequence at h
  cases h1 : stripLit ['('] s with
  | none => rw [h1, Option.none_bind'] at h; exact absurd h (by simp)
  | some rest =>
    rw [h1, Option.some_bind'] at h
    cases h2 : stripLit [')', ':', ':', '\x7b'] (rest.dropWhile (fun ch => ch != ')')) with
    | none => rw [h2, Option.none_bind'] at h; exact absurd h (by simp)
    | some rest2 =>
      rw [h2, Option.some_bind'] at h
      cases h3 : stripLit ['\x7d'] (rest2.dropWhile (fun ch => ch != '\x7d')) with
      | none => rw [h3, Option.none_bind'] at h; exact absurd h (by simp)
      | some t2 =>
        rw [h3, Option.some_bind'] at h
        by_cases he : (rest.takeWhile (fun ch => ch != ')')).isEmpty
            || (rest2.takeWhile (fun ch => ch != '\x7d')).isEmpty
        · rw [if_pos he] at h; simp at h
        · rw [if_neg he] at h
          simp only [Bool.or_eq_true, not_or, List.isEmpty_iff] at he
          refine ⟨rest.takeWhile (fun ch => ch != ')'),
                  rest2.takeWhile (fun ch => ch != '\x7d'), t2, he.1, ?_, he.2, ?_, ?_⟩
          · intro hmem
            have := List.mem_takeWhile_imp hmem
            simp [bne_iff_ne] at this
          · intro hmem
            have := List.mem_takeWhile_imp hmem
            simp [bne_iff_ne] at this
          · have e1 : s = ['('] ++ rest := stripLit_eq_some h1
            have e2 := List.takeWhile_append_dropWhile (fun ch => ch != ')') rest
            have e4 := List.takeWhile_append_dropWhile (fun ch => ch != '\x7d') rest2
            rw [stripLit_eq_some h2] at e2
            rw [stripLit_eq_some h3] at e4
            conv_lhs => rw [e1, ← e2, ← e4]
            simp

/-- The parser succeeds exactly on inputs that begin with the outer shape
(re.match semantics: trailing text allowed). -/
theorem parse_isSome_iff (s : List Char) :
    (parse_dna_sequence s).isSome = true ↔ MatchOuterShape s := by
  constructor
  · intro h
    cases hp : parse_dna_sequence s with
    | none => rw [hp] at h; simp at h
    | some p => exact parse_some_shape hp
  · rintro ⟨c, b, t, hc, hcn, hb, hbn, rfl⟩
    rw [parse_shaped c b t hc hcn hb hbn]
    rfl

theorem splitOnChar_ne_nil (sep : Char) (l : List Char) : splitOnChar sep l ≠ [] := by
  cases l with
  | nil => simp [splitOnChar]
  | cons c cs =>
    simp only [splitOnChar]
    split
    · simp
    · split <;> simp

theorem splitOnChar_cons_of_eq (sep : Char) (cs : List Char) :
    splitOnChar sep (sep :: cs) = [] :: splitOnChar sep cs := by
  cases hps : splitOnChar sep cs with
  | nil => exact absurd hps (splitOnChar_ne_nil _ _)
  | cons p ps => simp [splitOnChar, hps]

theorem splitOnChar_cons_of_ne (sep c : Char) (cs : List Char) (h : ¬(c = sep))
    (p : List Char) (ps : List (List Char)) (hps : splitOnChar sep cs = p :: ps) :
    splitOnChar sep (c :: cs) = (c :: p) :: ps := by
  simp [splitOnChar, hps, h]

theorem splitOnChar_no_sep (sep : Char) (l : List Char) (h : sep ∉ l) :
    splitOnChar sep l = [l] := by
  induction l with
  | nil => rfl
  | cons c cs ih =>
    have hc : ¬(c = sep) := fun hcs => h (by simp [hcs])
    have hcs : sep ∉ cs := fun hm => h (by simp [hm])
    rw [splitOnChar_cons_of_ne sep c cs hc cs [] (ih hcs)]

theorem splitOnChar_append_sep (sep : Char) (l r : List Char) (h : sep ∉ l) :
    splitOnChar sep (l ++ sep :: r) = l :: splitOnChar sep r := by
  induction l with
  | nil => simpa using splitOnChar_cons_of_eq sep r
  | cons c cs ih =>
    have hc : ¬(c = sep) := fun hcs => h (by simp [hcs])
    have hcs : sep ∉ cs := fun hm => h (by simp [hm])
    rw [List.cons_append, splitOnChar_cons_of_ne sep c _ hc _ _ (ih hcs)]

theorem splitOnChar_joinSep (sep : Char) (xs : List (List Char)) (hne : xs ≠ [])
    (h : ∀ x ∈ xs, sep ∉ x) : splitOnChar sep (joinSep sep xs) = xs := by
  induction xs with
  | nil => exact absurd rfl hne
  | cons x xs ih =>
    cases xs with
    | nil => exact splitOnChar_no_sep sep x (h x (by simp))
    | cons y ys =>
      have hx : sep ∉ x := h x (by simp)
      rw [show joinSep sep (x :: y :: ys) = x ++ sep :: joinSep sep (y :: ys) from rfl,
          splitOnChar_append_sep sep x _ hx,
          ih (by simp) (fun t ht => h t (by simp [ht]))]

theorem dropWhile_eq_self_of {p : Char → Bool} {l : List Char}
    (h : ∀ x ∈ l, p x = false) : l.dropWhile p = l := by
  cases l with
  | nil => rfl
  | cons c cs => exact dropWhile_cons_neg _ (h c (by simp))

theorem pyStrip_eq_self {l : List Char} (h : ∀ x ∈ l, pySpace x = false) :
    pyStrip l = l := by
  unfold pyStrip
  rw [dropWhile_eq_self_of h,
      dropWhile_eq_self_of (fun x hx => h x (List.mem_reverse.mp hx)),
      List.reverse_reverse]

theorem joinSep_ne_nil (sep : Char) (ts : List (List Char)) (hne : ts ≠ [])
    (h : ∀ t ∈ ts, t ≠ []) : joinSep sep ts ≠ [] := by
  cases ts with
  | nil => exact absurd rfl hne
  | cons x xs =>
    cases xs with
    | nil => exact h x (by simp)
    | cons y ys => simp [joinSep]

theorem joinSep_mem {sep x : Char} {ts : List (List Char)}
    (h : x ∈ joinSep sep ts) : x = sep ∨ ∃ t ∈ ts, x ∈ t := by
  induction ts with
  | nil => simp [joinSep] at h
  | cons t rest ih =>
    cases rest with
    | nil =>
      refine Or.inr ⟨t, by simp, ?_⟩
      simpa [joinSep] using h
    | cons u us =>
      rw [show joinSep sep (t :: u :: us) = t ++ sep :: joinSep sep (u :: us) from rfl] at h
      simp only [List.mem_append, List.mem_cons] at h
      rcases h with h | h | h
      · exact Or.inr ⟨t, by simp, h⟩
      · exact Or.inl h
      · rcases ih h with h | ⟨w, hw, hxw⟩
        · exact Or.inl h
        · exact Or.inr ⟨w, by simp [hw], hxw⟩

/-- Characters that cannot disturb parsing of a codon block: not the pipe
separator, not the closing brace, not whitespace. -/
def benign (x : Char) : Bool :=
  !(x == '|') && !(x == '\x7d') && !(pySpace x)

theorem benign_spec {x : Char} (h : benign x = true) :
    x ≠ '|' ∧ x ≠ '\x7d' ∧ pySpace x = false := by
  simp only [benign, Bool.and_eq_true, Bool.not_eq_true', beq_eq_false_iff_ne, ne_eq] at h
  exact ⟨h.1.1, h.1.2, h.2⟩

/-- Lowercase token characters per the spec grammar (concept = 1-3 comma-joined
lowercase tokens). -/
def lowerTok (t : List Char) : Bool :=
  !t.isEmpty && t.all (fun ch => decide ('a' ≤ ch) && decide (ch ≤ 'z'))

theorem lowerTok_spec {t : List Char} (h : lowerTok t = true) :
    t ≠ [] ∧ ∀ x ∈ t, 'a' ≤ x ∧ x ≤ 'z' := by
  simp only [lowerTok, Bool.and_eq_true, Bool.not_eq_true', List.all_eq_true,
             decide_eq_true_eq] at h
  refine ⟨?_, fun x hx => ⟨(h.2 x hx).1, (h.2 x hx).2⟩⟩
  rintro rfl
  simp at h

theorem lower_ranges {x : Char} (h1 : 'a' ≤ x) (h2 : x ≤ 'z') :
    x ≠ ')' ∧ x ≠ ',' ∧ benign x = true := by
  have hne : ∀ c : Char, c < 'a' ∨ 'z' < c → x ≠ c := by
    rintro c (hc | hc) rfl
    · exact absurd h1 (not_le.mpr hc)
    · exact absurd h2 (not_le.mpr hc)
  refine ⟨hne ')' (Or.inl (by decide)), hne ',' (Or.inl (by decide)), ?_⟩
  simp [benign, pySpace,
        hne '|' (Or.inr (by decide)), hne '\x7d' (Or.inr (by decide)),
        hne ' ' (Or.inl (by decide)), hne '\t' (Or.inl (by decide)),
        hne '\n' (Or.inl (by decide)), hne '\r' (Or.inl (by decide)),
        hne '\x0b' (Or.inl (by decide)), hne '\x0c' (Or.inl (by decide))]

/-- Concept per the spec grammar: 1 to 3 comma-joined lowercase tokens. -/
def conceptGrammar (c : List Char) : Prop :=
  ∃ ts : List (List Char), ts ≠ [] ∧ ts.length ≤ 3 ∧
    (∀ t ∈ ts, lowerTok t = true) ∧ c = joinSep ',' ts

/-- Every NAMESPACE:SYMBOL pair of the fixed codex
(memome_codex.MEMOME_CODEX). -/
def codexCodons : List (List Char) :=
  ["E:JOY", "E:SER", "E:ANG", "E:SAD", "E:FEA", "E:AWE",
   "T:STA", "T:LIN", "T:CYC", "T:ERU", "T:DEC",
   "C:SNG", "C:DNS", "C:SPR",
   "R:→", "R:⚔", "R:⊕", "R:[]",
   "S:VIS", "S:AUD", "S:TAC", "S:SYN",
   "F:Δ!", "F:∞", "F:══▶", "F:≈≈",
   "Ψ:ALR", "Ψ:DRM", "Ψ:MED", "Ψ:EMR"].map String.toList

/-- Relational operator symbols (cause-effect, conflict, harmony). -/
def relOp (c : Char) : Prop := c = '→' ∨ c = '⚔' ∨ c = '⊕'

/-- Relational codon form R:(a)OP(b) per the spec grammar. -/
def relCodon (co : List Char) : Prop :=
  ∃ t1 t2 : List Char, ∃ op : Char, lowerTok t1 = true ∧ lowerTok t2 = true ∧ relOp op ∧
    co = 'R' :: ':' :: '(' :: (t1 ++ ')' :: op :: '(' :: (t2 ++ [')']))

/-- Codon per the spec grammar: from the fixed codex, or relational. -/
def codonGrammar (co : List Char) : Prop := co ∈ codexCodons ∨ relCodon co

/-- Valid DNA sequence per the spec grammar (bit-exact form in the spec):
"(" concept ")" "::" braced '|'-joined codons. -/
def dnaGrammar (s : List Char) : Prop :=
  ∃ concept : List Char, ∃ codons : List (List Char),
    conceptGrammar concept ∧ codons ≠ [] ∧ (∀ co ∈ codons, codonGrammar co) ∧
    s = dnaRender concept codons

theorem codexCodons_wf :
    ∀ co ∈ codexCodons, co ≠ [] ∧ ∀ x ∈ co, benign x = true := by decide

theorem codonGrammar_wf {co : List Char} (h : codonGrammar co) :
    co ≠ [] ∧ ∀ x ∈ co, benign x = true := by
  rcases h with h | ⟨t1, t2, op, ht1, ht2, hop, rfl⟩
  · exact codexCodons_wf co h
  · refine ⟨by simp, ?_⟩
    intro x hx
    have hopb : benign op = true := by
      rcases hop with rfl | rfl | rfl <;> decide
    simp only [List.mem_cons, List.mem_append, List.mem_singleton, List.not_mem_nil,
               or_false, or_assoc] at hx
    rcases hx with rfl | rfl | rfl | hx | rfl | rfl | rfl | hx | rfl
    · decide
    · decide
    · decide
    · exact (lower_ranges ((lowerTok_spec ht1).2 x hx).1 ((lowerTok_spec ht1).2 x hx).2).2.2
    · decide
    · exact hopb
    · decide
    · exact (lower_ranges ((lowerTok_spec ht2).2 x hx).1 ((lowerTok_spec ht2).2 x hx).2).2.2
    · decide

theorem conceptGrammar_shape {c : List Char} (h : conceptGrammar c) :
    c ≠ [] ∧ ')' ∉ c := by
  obtain ⟨ts, hne, _, hall, rfl⟩ := h
  constructor
  · exact joinSep_ne_nil ',' ts hne (fun t ht => (lowerTok_spec (hall t ht)).1)
  · intro hmem
    rcases joinSep_mem hmem with h | ⟨t, ht, hx⟩
    · exact absurd h (by decide)
    · exact absurd rfl (lower_ranges ((lowerTok_spec (hall t ht)).2 _ hx).1
        ((lowerTok_spec (hall t ht)).2 _ hx).2).1

theorem map_pyStrip_self {ls : List (List Char)}
    (h : ∀ l ∈ ls, ∀ x ∈ l, pySpace x = false) : ls.map pyStrip = ls := by
  induction ls with
  | nil => rfl
  | cons a as ih =>
    simp [pyStrip_eq_self (h a (by simp)), ih (fun l hl => h l (by simp [hl]))]

/-- C1: for every valid DNA sequence s matching the grammar
(concept)::\x7bcodon|...|codon\x7d, rendering the result of parse_dna_sequence s
back to text (the concept in parentheses, then "::", then the codons joined by
'|' inside braces, as reproduce renders it) yields a sequence that
parse_dna_sequence maps to the same core_concept and the same codon multiset
as s. -/
theorem dna_roundtrip_grammar (s : List Char) (hs : dnaGrammar s) :
    ∃ p q : ParsedDNA, parse_dna_sequence s = some p ∧
      parse_dna_sequence (dnaRender p.core_concept p.codons) = some q ∧
      q.core_concept = p.core_concept ∧
      (↑q.codons : Multiset (List Char)) = (↑p.codons : Multiset (List Char)) := by
  obtain ⟨concept, codons, hcg, hcne, hcall, rfl⟩ := hs
  obtain ⟨hcne2, hcnp⟩ := conceptGrammar_shape hcg
  have hwf : ∀ co ∈ codons, co ≠ [] ∧ ∀ x ∈ co, benign x = true :=
    fun co h => codonGrammar_wf (hcall co h)
  have hbne : joinSep '|' codons ≠ [] :=
    joinSep_ne_nil _ _ hcne (fun t ht => (hwf t ht).1)
  have hbnb : '\x7d' ∉ joinSep '|' codons := by
    intro hmem
    rcases joinSep_mem hmem with h | ⟨t, ht, hx⟩
    · exact absurd h (by decide)
    · exact (benign_spec ((hwf t ht).2 _ hx)).2.1 rfl
  have hsplit : splitOnChar '|' (joinSep '|' codons) = codons :=
    splitOnChar_joinSep '|' codons hcne
      (fun t ht hmem => (benign_spec ((hwf t ht).2 _ hmem)).1 rfl)
  have hstrip : codons.map pyStrip = codons :=
    map_pyStrip_self (fun l hl x hx => (benign_spec ((hwf l hl).2 x hx)).2.2)
  have hp2 : parse_dna_sequence (dnaRender concept codons)
      = some ⟨concept, codons, dnaRender concept codons⟩ := by
    have hp := parse_shaped concept (joinSep '|' codons) [] hcne2 hcnp hbne hbnb
    rw [hsplit, hstrip] at hp
    exact hp
  exact ⟨⟨concept, codons, dnaRender concept codons⟩,
         ⟨concept, codons, dnaRender concept codons⟩, hp2, hp2, rfl, rfl⟩

/-- Witness for dna_roundtrip_grammar at the scenario sequence
"(x)::\x7bE:JOY|T:STA\x7d". -/
theorem dna_roundtrip_grammar_witness :
    dnaGrammar ("(x)::\x7bE:JOY|T:STA\x7d".toList) ∧
    (∃ p q : ParsedDNA,
      parse_dna_sequence ("(x)::\x7bE:JOY|T:STA\x7d".toList) = some p ∧
      parse_dna_sequence (dnaRender p.core_concept p.codons) = some q ∧
      q.core_concept = p.core_concept ∧
      (↑q.codons : Multiset (List Char)) = (↑p.codons : Multiset (List Char))) := by
  have hg : dnaGrammar ("(x)::\x7bE:JOY|T:STA\x7d".toList) := by
    refine ⟨"x".toList, ["E:JOY".toList, "T:STA".toList],
            ⟨[['x']], by decide, by decide, by decide, by decide⟩,
            by decide, ?_, by decide⟩
    intro co hco
    simp only [List.mem_cons, List.not_mem_nil, or_false] at hco
    rcases hco with rfl | rfl
    · exact Or.inl (by decide)
    · exact Or.inl (by decide)
  exact ⟨hg, dna_roundtrip_grammar _ hg⟩

theorem getLast?_append_one (l : List Char) (a : Char) :
    (l ++ [a]).getLast? = some a := by
  rw [List.getLast?_append_cons]
  rfl

/-- C4 counterexample: the input "(x)::\x7ba\x7dz" does not have the outer
shape (…)::\x7b…\x7d as a whole string (it ends in 'z', not the closing
brace), yet parse_dna_sequence succeeds on it — re.match accepts trailing
text.  So parse does not raise for every input whose outer shape fails to
match the whole string; the raises-iff direction of the claim is false. -/
theorem parse_outer_shape_counterexample :
    ¬ SpecOuterShape ("(x)::\x7ba\x7dz".toList) ∧
    (parse_dna_sequence ("(x)::\x7ba\x7dz".toList)).isSome = true := by
  constructor
  · rintro ⟨c, b, hcne, hcnp, hbne, hbnp, heq⟩
    have h1 : ("(x)::\x7ba\x7dz".toList).getLast? = some 'z' := by decide
    rw [heq] at h1
    rw [show '(' :: (c ++ ')' :: ':' :: ':' :: '\x7b' :: (b ++ ['\x7d']))
        = (('(' :: c) ++ ')' :: ':' :: ':' :: '\x7b' :: b) ++ ['\x7d'] by simp] at h1
    rw [getLast?_append_one] at h1
    simp at h1
  · decide

/-- C4 amended: parse_dna_sequence returns, for every input that STARTS with
the (…)::\x7b…\x7d shape (re.match is prefix-anchored; trailing characters are
ignored), a ParsedDNA whose core_concept is the parenthesized text and whose
codons are the '|'-split, whitespace-trimmed list retained verbatim with no
codex validation; and it fails (MalformedSequence) exactly for the inputs that
do not start with that shape.  In particular "(x)::\x7bE:JOY|T:STA\x7d" yields
concept "x" and codons ["E:JOY", "T:STA"], and "bad" fails. -/
theorem parse_dna_shape_amended :
    (∀ c b t : List Char, c ≠ [] → ')' ∉ c → b ≠ [] → '\x7d' ∉ b →
      parse_dna_sequence ('(' :: (c ++ ')' :: ':' :: ':' :: '\x7b' :: (b ++ '\x7d' :: t)))
        = some ⟨c, (splitOnChar '|' b).map pyStrip,
                '(' :: (c ++ ')' :: ':' :: ':' :: '\x7b' :: (b ++ '\x7d' :: t))⟩) ∧
    (∀ s : List Char, parse_dna_sequence s = none ↔ ¬ MatchOuterShape s) ∧
    parse_dna_sequence ("(x)::\x7bE:JOY|T:STA\x7d".toList)
      = some ⟨"x".toList, ["E:JOY".toList, "T:STA".toList],
              "(x)::\x7bE:JOY|T:STA\x7d".toList⟩ ∧
    parse_dna_sequence ("bad".toList) = none := by
  refine ⟨parse_shaped, ?_, by decide, by decide⟩
  intro s
  rw [← parse_isSome_iff]
  cases hp : parse_dna_sequence s <;> simp [hp]

/-- Witness for parse_dna_shape_amended: its first conjunct applied at the
concrete decomposition of "(a)::\x7bE:SER\x7d". -/
theorem parse_dna_shape_amended_witness :
    parse_dna_sequence ('(' :: ("a".toList ++ ')' :: ':' :: ':' :: '\x7b' ::
        ("E:SER".toList ++ '\x7d' :: [])))
      = some ⟨"a".toList, (splitOnChar '|' "E:SER".toList).map pyStrip,
              '(' :: ("a".toList ++ ')' :: ':' :: ':' :: '\x7b' ::
                ("E:SER".toList ++ '\x7d' :: []))⟩ :=
  parse_dna_shape_amended.1 "a".toList "E:SER".toList [] (by decide) (by decide)
    (by decide) (by decide)

/-- Memory record as stored in the v2 collection: the metadata fields the
energy scheduler and the synaptic linker read and write
(conversation_cortex_v2.py). -/
structure RecordV2 where
  rid : String
  energy : ℚ
  synaptic_links : List String
deriving DecidableEq, Repr

instance : Inhabited RecordV2 := ⟨⟨"", 1, []⟩⟩

/-- Cortex state: the collection's records plus the per-instance dream
counter. -/
structure CortexState where
  records : List RecordV2
  dream_count : ℕ
deriving DecidableEq, Repr

/-- First index of a maximal element, numpy argmax tie-breaking (first
maximum wins). -/
def argmaxIdx : List ℚ → ℕ
  | [] => 0
  | x :: xs => if xs.all (fun y => decide (y ≤ x)) then 0 else argmaxIdx xs + 1

theorem argmaxIdx_cons (x : ℚ) (xs : List ℚ) :
    argmaxIdx (x :: xs)
      = if xs.all (fun y => decide (y ≤ x)) then 0 else argmaxIdx xs + 1 := rfl

theorem argmaxIdx_lt_length {l : List ℚ} (h : l ≠ []) : argmaxIdx l < l.length := by
  induction l with
  | nil => exact absurd rfl h
  | cons x xs ih =>
    by_cases hall : xs.all (fun y => decide (y ≤ x))
    · simp [argmaxIdx_cons, hall]
    · cases xs with
      | nil => simp at hall
      | cons y ys =>
        have := ih (by simp)
        rw [argmaxIdx_cons, if_neg hall, List.length_cons]
        exact Nat.succ_lt_succ this

theorem argmaxIdx_max (l : List ℚ) : ∀ x ∈ l, x ≤ l.getD (argmaxIdx l) 0 := by
  induction l with
  | nil => simp
  | cons x xs ih =>
    by_cases hall : xs.all (fun y => decide (y ≤ x))
    · rw [argmaxIdx_cons, if_pos hall]
      simp only [List.getD_cons_zero]
      intro y hy
      rcases List.mem_cons.mp hy with rfl | hy
      · exact le_refl y
      · simpa using (List.all_eq_true.mp hall) y hy
    · rw [argmaxIdx_cons, if_neg hall]
      simp only [List.getD_cons_succ]
      have hex : ∃ y ∈ xs, x < y := by
        by_contra hno
        push_neg at hno
        exact hall (List.all_eq_true.mpr (fun y hy => by simpa using hno y hy))
      obtain ⟨y, hy, hxy⟩ := hex
      intro z hz
      rcases List.mem_cons.mp hz with rfl | hz
      · exact le_of_lt (lt_of_lt_of_le hxy (ih y hy))
      · exact ih z hz

/-- Per-record energy update of a dream cycle: records in the dream cluster
are boosted by 0.1 capped at 1.0, all others decay by 0.03 floored at 0.05. -/
def energy_update (cluster : List String) (r : RecordV2) : RecordV2 :=
  if r.rid ∈ cluster then { r with energy := min 1 (r.energy + 1/10) }
  else { r with energy := max (1/20) (r.energy - 3/100) }

/-- Seed record of a dream cycle: the record at the first maximal-energy
index (np.argmax over the energies). -/
def dream_seed (st : CortexState) : RecordV2 :=
  st.records.getD (argmaxIdx (st.records.map (fun r => r.energy))) default

/-- Dream cluster: the seed's id plus its synaptic links. -/
def dream_cluster (st : CortexState) : List String :=
  (dream_seed st).rid :: (dream_seed st).synaptic_links

/-- Embedding of ConversationCortexV2.dream_cycle: with fewer than 2 records
do nothing and return Python None (bare return); otherwise update every
record's energy by cluster membership, increment the dream counter, and
return the cluster. -/
def dream_cycle (st : CortexState) : CortexState × Option (List String) :=
  if st.records.length < 2 then (st, none)
  else
    ({ records := st.records.map (energy_update (dream_cluster st)),
       dream_count := st.dream_count + 1 },
     some (dream_cluster st))

/-- Iterated dream cycles (state component only). -/
def dream_iter : ℕ → CortexState → CortexState
  | 0, st => st
  | k + 1, st => dream_iter k (dream_cycle st).1

/-- Every record's energy lies within the documented [0.05, 1.0] bounds. -/
def EnergiesInBounds (st : CortexState) : Prop :=
  ∀ r ∈ st.records, 1/20 ≤ r.energy ∧ r.energy ≤ 1

instance (st : CortexState) : Decidable (EnergiesInBounds st) :=
  inferInstanceAs (Decidable (∀ r ∈ st.records, 1/20 ≤ r.energy ∧ r.energy ≤ 1))

theorem energy_update_bounds (cluster : List String) (r : RecordV2)
    (h1 : 1/20 ≤ r.energy) (h2 : r.energy ≤ 1) :
    1/20 ≤ (energy_update cluster r).energy ∧ (energy_update cluster r).energy ≤ 1 := by
  unfold energy_update
  split
  · exact ⟨le_min (by norm_num) (by linarith), min_le_left _ _⟩
  · exact ⟨le_max_left _ _, max_le (by norm_num) (by linarith)⟩

theorem dream_cycle_bounds_step {st : CortexState} (h : EnergiesInBounds st) :
    EnergiesInBounds (dream_cycle st).1 := by
  unfold dream_cycle
  split
  · exact h
  · intro r hr
    simp only [List.mem_map] at hr
    obtain ⟨r0, hr0, rfl⟩ := hr
    exact energy_update_bounds _ r0 (h r0 hr0).1 (h r0 hr0).2

/-- C2: for every store state in which each record's energy lies in
[0.05, 1.0], after any finite sequence of dream_cycle calls every record's
energy still lies in [0.05, 1.0]. -/
theorem dream_cycle_energy_bounds (st : CortexState) (k : ℕ)
    (h : EnergiesInBounds st) : EnergiesInBounds (dream_iter k st) := by
  induction k generalizing st with
  | zero => exact h
  | succ k ih => exact ih _ (dream_cycle_bounds_step h)

/-- Witness for dream_cycle_energy_bounds: three dream cycles on a concrete
two-record store. -/
theorem dream_cycle_energy_bounds_witness :
    EnergiesInBounds ⟨[⟨"a", 9/10, ["b"]⟩, ⟨"b", 1/2, []⟩], 0⟩ ∧
    EnergiesInBounds (dream_iter 3 ⟨[⟨"a", 9/10, ["b"]⟩, ⟨"b", 1/2, []⟩], 0⟩) := by
  have hb : EnergiesInBounds ⟨[⟨"a", 9/10, ["b"]⟩, ⟨"b", 1/2, []⟩], 0⟩ := by
    norm_num [EnergiesInBounds]
  exact ⟨hb, dream_cycle_energy_bounds _ 3 hb⟩

/-- C3: for every store with at least 2 records (energies within the
documented [0.05, 1.0] record bounds), a single dream_cycle call returns a
cluster — the maximal-energy seed plus its synaptic links — and positionally
every record whose id is in that cluster has post-energy ≥ its pre-call
value, while every record outside has post-energy ≤ its pre-call value. -/
theorem dream_cycle_cluster_reinforcement (st : CortexState)
    (hlen : 2 ≤ st.records.length) (hb : EnergiesInBounds st) :
    ∃ cluster : List String, (dream_cycle st).2 = some cluster ∧
      ∀ i : ℕ, ∀ r r2 : RecordV2, st.records[i]? = some r →
        (dream_cycle st).1.records[i]? = some r2 →
        (r.rid ∈ cluster → r.energy ≤ r2.energy) ∧
        (r.rid ∉ cluster → r2.energy ≤ r.energy) := by
  have hnot : ¬ st.records.length < 2 := by omega
  refine ⟨dream_cluster st, by unfold dream_cycle; rw [if_neg hnot], ?_⟩
  intro i r r2 hr hr2
  have hrec : (dream_cycle st).1.records
      = st.records.map (energy_update (dream_cluster st)) := by
    unfold dream_cycle; rw [if_neg hnot]
  rw [hrec, List.getElem?_map, hr] at hr2
  simp only [Option.map_some', Option.some.injEq] at hr2
  subst hr2
  have hmem : r ∈ st.records := List.getElem?_mem hr
  constructor
  · intro hin
    unfold energy_update
    rw [if_pos hin]
    exact le_min (hb r hmem).2 (by linarith)
  · intro hout
    unfold energy_update
    rw [if_neg hout]
    exact max_le (hb r hmem).1 (by linarith)

/-- Witness for dream_cycle_cluster_reinforcement on a concrete two-record
store. -/
theorem dream_cycle_cluster_reinforcement_witness :
    2 ≤ (⟨[⟨"a", 9/10, ["b"]⟩, ⟨"b", 1/2, []⟩], 0⟩ : CortexState).records.length ∧
    EnergiesInBounds ⟨[⟨"a", 9/10, ["b"]⟩, ⟨"b", 1/2, []⟩], 0⟩ ∧
    (∃ cluster : List String,
      (dream_cycle ⟨[⟨"a", 9/10, ["b"]⟩, ⟨"b", 1/2, []⟩], 0⟩).2 = some cluster ∧
      ∀ i : ℕ, ∀ r r2 : RecordV2,
        (⟨[⟨"a", 9/10, ["b"]⟩, ⟨"b", 1/2, []⟩], 0⟩ : CortexState).records[i]? = some r →
        (dream_cycle ⟨[⟨"a", 9/10, ["b"]⟩, ⟨"b", 1/2, []⟩], 0⟩).1.records[i]? = some r2 →
        (r.rid ∈ cluster → r.energy ≤ r2.energy) ∧
        (r.rid ∉ cluster → r2.energy ≤ r.energy)) := by
  have hb : EnergiesInBounds ⟨[⟨"a", 9/10, ["b"]⟩, ⟨"b", 1/2, []⟩], 0⟩ := by
    norm_num [EnergiesInBounds]
  exact ⟨by decide, hb, dream_cycle_cluster_reinforcement _ (by decide) hb⟩

/-- C8 counterexample: on a single-record store, dream_cycle returns Python
None (bare return) — not the empty cluster the claim states. -/
theorem dream_cycle_none_counterexample :
    (dream_cycle ⟨[⟨"r1", 1, []⟩], 0⟩).2 = none ∧
    (dream_cycle ⟨[⟨"r1", 1, []⟩], 0⟩).2 ≠ some [] := by decide

/-- C8 amended: for a store with fewer than 2 records dream_cycle is a no-op
that returns None (an absent cluster, not an empty one) and leaves records
and the dream counter unchanged; with at least 2 records it increments the
dream counter by exactly one and returns the cluster consisting of the
maximal-energy seed (first maximum in store order) and its synaptic links. -/
theorem dream_cycle_noop_amended :
    (∀ st : CortexState, st.records.length < 2 → dream_cycle st = (st, none)) ∧
    (∀ st : CortexState, 2 ≤ st.records.length →
      (dream_cycle st).1.dream_count = st.dream_count + 1 ∧
      ∃ seed ∈ st.records, (∀ r ∈ st.records, r.energy ≤ seed.energy) ∧
        (dream_cycle st).2 = some (seed.rid :: seed.synaptic_links)) := by
  constructor
  · intro st h
    unfold dream_cycle
    rw [if_pos h]
  · intro st h
    have hnot : ¬ st.records.length < 2 := by omega
    have hne : st.records ≠ [] := by
      intro hnil
      rw [hnil] at h
      simp at h
    have hlt : argmaxIdx (st.records.map (fun r => r.energy)) < st.records.length := by
      have hmne : (st.records.map (fun r => r.energy)) ≠ [] := by simpa using hne
      have := argmaxIdx_lt_length hmne
      simpa using this
    refine ⟨by unfold dream_cycle; rw [if_neg hnot], dream_seed st, ?_, ?_, ?_⟩
    · unfold dream_seed
      rw [List.getD_eq_getElem _ _ hlt]
      exact List.getElem_mem hlt
    · intro r hr
      have h1 := argmaxIdx_max (st.records.map (fun r => r.energy)) r.energy
        (List.mem_map_of_mem _ hr)
      have hltm : argmaxIdx (st.records.map (fun r => r.energy))
          < (st.records.map (fun r => r.energy)).length := by simpa using hlt
      have h2 : (st.records.map (fun r => r.energy)).getD
            (argmaxIdx (st.records.map (fun r => r.energy))) 0
          = (dream_seed st).energy := by
        unfold dream_seed
        rw [List.getD_eq_getElem _ _ hltm, List.getD_eq_getElem _ _ hlt,
            List.getElem_map]
      rw [h2] at h1
      exact h1
    · unfold dream_cycle
      rw [if_neg hnot]
      rfl

/-- Witness for dream_cycle_noop_amended: both branches at concrete stores. -/
theorem dream_cycle_noop_amended_witness :
    dream_cycle ⟨[⟨"solo", 1, []⟩], 5⟩ = (⟨[⟨"solo", 1, []⟩], 5⟩, none) ∧
    ((dream_cycle ⟨[⟨"a", 9/10, ["b"]⟩, ⟨"b", 1/2, []⟩], 7⟩).1.dream_count = 7 + 1 ∧
      ∃ seed ∈ (⟨[⟨"a", 9/10, ["b"]⟩, ⟨"b", 1/2, []⟩], 7⟩ : CortexState).records,
        (∀ r ∈ (⟨[⟨"a", 9/10, ["b"]⟩, ⟨"b", 1/2, []⟩], 7⟩ : CortexState).records,
          r.energy ≤ seed.energy) ∧
        (dream_cycle ⟨[⟨"a", 9/10, ["b"]⟩, ⟨"b", 1/2, []⟩], 7⟩).2
          = some (seed.rid :: seed.synaptic_links)) :=
  ⟨dream_cycle_noop_amended.1 _ (by decide), dream_cycle_noop_amended.2 _ (by decide)⟩

/-- Embedding of ConversationCortexV2._link_resonant: no-op when the store
has fewer than 2 records; otherwise take the store's nearest-neighbor result
ids for n_results = top_n + 1 (injected here as queryIds, the store being an
external port), drop the query record's own id, keep the first top_n, and
persist them on the new record only — and only when the kept list is
nonempty. -/
def link_resonant (st : List RecordV2) (spore_id : String)
    (queryIds : List String) (top_n : ℕ) : List RecordV2 :=
  if st.length < 2 then st
  else if ((queryIds.filter (fun sid => sid != spore_id)).take top_n).isEmpty then st
  else st.map (fun r =>
    if r.rid = spore_id then
      { r with synaptic_links := (queryIds.filter (fun sid => sid != spore_id)).take top_n }
    else r)

theorem links_wf (spore_id : String) (queryIds : List String) (top_n : ℕ)
    (hq : queryIds.Nodup) :
    ((queryIds.filter (fun sid => sid != spore_id)).take top_n).length ≤ top_n ∧
    ((queryIds.filter (fun sid => sid != spore_id)).take top_n).Nodup ∧
    spore_id ∉ (queryIds.filter (fun sid => sid != spore_id)).take top_n := by
  refine ⟨?_, ?_, ?_⟩
  · rw [List.length_take]
    exact min_le_left _ _
  · exact List.Nodup.sublist (List.take_sublist _ _) (List.Nodup.filter _ hq)
  · intro hmem
    have h1 := List.mem_filter.mp (List.mem_of_mem_take hmem)
    simp at h1

/-- C9: after the linking step that follows an ingestion (the new record's
synaptic_links field is "[]" immediately after the store add), the new
record's synaptic_links hold at most K = 2 ids, contain no duplicates and
never the record's own id; and no record other than the new one is modified.
queryIds is the store's similarity-query response, whose contract guarantees
duplicate-free ids. -/
theorem link_resonant_invariant (st : List RecordV2) (spore_id : String)
    (queryIds : List String) (hq : queryIds.Nodup)
    (hpre : ∀ r ∈ st, r.rid = spore_id → r.synaptic_links = []) :
    (link_resonant st spore_id queryIds 2).length = st.length ∧
    ∀ i : ℕ, ∀ r r2 : RecordV2, st[i]? = some r →
      (link_resonant st spore_id queryIds 2)[i]? = some r2 →
      (r.rid ≠ spore_id → r2 = r) ∧
      (r.rid = spore_id →
        r2.rid = r.rid ∧ r2.energy = r.energy ∧
        r2.synaptic_links.length ≤ 2 ∧ r2.synaptic_links.Nodup ∧
        spore_id ∉ r2.synaptic_links) := by
  obtain ⟨hlen, hnd, hnotmem⟩ := links_wf spore_id queryIds 2 hq
  have hid : ∀ i : ℕ, ∀ r r2 : RecordV2, st[i]? = some r → st[i]? = some r2 →
      (r.rid ≠ spore_id → r2 = r) ∧
      (r.rid = spore_id →
        r2.rid = r.rid ∧ r2.energy = r.energy ∧
        r2.synaptic_links.length ≤ 2 ∧ r2.synaptic_links.Nodup ∧
        spore_id ∉ r2.synaptic_links) := by
    intro i r r2 h1 h2
    rw [h1] at h2
    cases h2
    refine ⟨fun _ => rfl, fun hr => ?_⟩
    have hlinks : r.synaptic_links = [] := hpre r (List.getElem?_mem h1) hr
    rw [hlinks]
    exact ⟨rfl, rfl, by simp, List.nodup_nil, List.not_mem_nil _⟩
  unfold link_resonant
  split
  · exact ⟨rfl, hid⟩
  · split
    · exact ⟨rfl, hid⟩
    · constructor
      · exact List.length_map _ _
      · intro i r r2 h1 h2
        rw [List.getElem?_map, h1] at h2
        simp only [Option.map_some', Option.some.injEq] at h2
        subst h2
        constructor
        · intro hne
          rw [if_neg hne]
        · intro hr
          rw [if_pos hr]
          exact ⟨rfl, rfl, hlen, hnd, hnotmem⟩

/-- Witness for link_resonant_invariant on a concrete two-record store with a
duplicate-free query response. -/
theorem link_resonant_invariant_witness :
    (link_resonant [⟨"old", 1, []⟩, ⟨"new", 1, []⟩] "new" ["new", "old", "x"] 2).length
      = ([⟨"old", 1, []⟩, ⟨"new", 1, []⟩] : List RecordV2).length ∧
    ∀ i : ℕ, ∀ r r2 : RecordV2,
      ([⟨"old", 1, []⟩, ⟨"new", 1, []⟩] : List RecordV2)[i]? = some r →
      (link_resonant [⟨"old", 1, []⟩, ⟨"new", 1, []⟩] "new" ["new", "old", "x"] 2)[i]?
        = some r2 →
      (r.rid ≠ "new" → r2 = r) ∧
      (r.rid = "new" →
        r2.rid = r.rid ∧ r2.energy = r.energy ∧
        r2.synaptic_links.length ≤ 2 ∧ r2.synaptic_links.Nodup ∧
        "new" ∉ r2.synaptic_links) :=
  link_resonant_invariant _ _ _ (by decide) (by decide)

/-- Spore as the Weaver engine sees it (weaver_engine.MemorySpore): the
fields select_parents and reproduce read. -/
structure MemorySpore where
  spore_id : String
  core_concept : List Char
  codons : List String
  frequency_vector : List ℚ
  energy_level : ℚ
  synaptic_links : List String
deriving DecidableEq, Repr

/-- Count of distinct codons shared by both lists:
len(set(a) ∩ set(b)). -/
def distinct_overlap (a b : List String) : ℕ :=
  (a.dedup.filter (fun c => decide (c ∈ b))).length

/-- Resonance score of a parent-B candidate (weaver_engine.select_parents
loop body): the injected cosine similarity when both frequency vectors are
nonempty (else 0), plus a 0.3 bonus when the candidate is synaptically linked
from A, plus 0.1 per distinct shared codon. -/
def candidate_score (sim : List ℚ → List ℚ → ℚ) (pa cand : MemorySpore) : ℚ :=
  (if pa.frequency_vector ≠ [] ∧ cand.frequency_vector ≠ [] then
      sim pa.frequency_vector cand.frequency_vector
    else 0)
  + (if cand.spore_id ∈ pa.synaptic_links then 3/10 else 0)
  + (distinct_overlap pa.codons cand.codons : ℚ) * (1/10)

/-- Loop over candidates[1:] keeping the strictly best-scoring candidate,
starting from best_resonance = -1 and parent_b = None. -/
def select_parent_b (sim : List ℚ → List ℚ → ℚ) (pa : MemorySpore)
    (rest : List MemorySpore) : Option MemorySpore :=
  (rest.foldl (fun acc cand =>
      if acc.1 < candidate_score sim pa cand
      then (candidate_score sim pa cand, some cand) else acc)
    ((-1 : ℚ), (none : Option MemorySpore))).2

/-- Stable insertion for descending sort by energy: a new element goes after
all strictly higher-energy elements and before equal-energy ones, matching
Python's stable sorted(..., reverse=True). -/
def insert_desc (s : MemorySpore) : List MemorySpore → List MemorySpore
  | [] => [s]
  | x :: xs =>
    if s.energy_level < x.energy_level then x :: insert_desc s xs else s :: x :: xs

/-- Stable descending sort by energy_level. -/
def sort_by_energy_desc : List MemorySpore → List MemorySpore
  | [] => []
  | x :: xs => insert_desc x (sort_by_energy_desc xs)

/-- Candidate pool of weaver_engine.select_parents: spores with
energy_level ≥ min_energy; when fewer than 2 qualify, relaxed to the top 10
by energy. -/
def candidate_pool (spores : List MemorySpore) (min_energy : ℚ) : List MemorySpore :=
  if (spores.filter (fun s => decide (min_energy ≤ s.energy_level))).length < 2 then
    (sort_by_energy_desc spores).take (min spores.length 10)
  else spores.filter (fun s => decide (min_energy ≤ s.energy_level))

/-- Embedding of WeaverEngine.select_parents: parent A is candidates[0] of
the pool; parent B the best-resonance candidate among the rest; None when
fewer than 2 candidates or no candidate scores above -1. -/
def select_parents (sim : List ℚ → List ℚ → ℚ) (spores : List MemorySpore)
    (min_energy : ℚ) : Option (MemorySpore × MemorySpore) :=
  if (candidate_pool spores min_energy).length < 2 then none
  else
    match candidate_pool spores min_energy with
    | [] => none
    | pa :: rest =>
      match select_parent_b sim pa rest with
      | some pb => some (pa, pb)
      | none => none

def c6_s1 : MemorySpore := ⟨"s1", [], [], [], 85/100, []⟩

def c6_s2 : MemorySpore := ⟨"s2", [], [], [], 95/100, []⟩

/-- C6 code_bug evaluation: with spores of energy 0.85 and 0.95 in that list
order, both above min_energy = 0.8, select_parents returns the FIRST
qualifying spore (energy 0.85) as parent A — candidates[0] of the unsorted
filtered pool — not a maximal-energy candidate, contradicting the spec and
the code's own comment "Select parent A (highest energy)". -/
theorem select_parents_first_not_max :
    select_parents (fun _ _ => 0) [c6_s1, c6_s2] (8/10) = some (c6_s1, c6_s2)
    ∧ c6_s1.energy_level < c6_s2.energy_level := by
  have hf : List.filter (fun s => decide ((8:ℚ)/10 ≤ s.energy_level)) [c6_s1, c6_s2]
      = [c6_s1, c6_s2] := by
    have h1 : ((8:ℚ)/10 ≤ c6_s1.energy_level) := by norm_num [c6_s1]
    have h2 : ((8:ℚ)/10 ≤ c6_s2.energy_level) := by norm_num [c6_s2]
    simp [List.filter_cons, h1, h2]
  have hpool : candidate_pool [c6_s1, c6_s2] (8/10) = [c6_s1, c6_s2] := by
    unfold candidate_pool
    rw [hf]
    norm_num
  have hscore : candidate_score (fun _ _ => 0) c6_s1 c6_s2 = 0 := by
    simp [candidate_score, distinct_overlap, c6_s1, c6_s2, List.dedup]
  have hb : select_parent_b (fun _ _ => 0) c6_s1 [c6_s2] = some c6_s2 := by
    unfold select_parent_b
    simp only [List.foldl_cons, List.foldl_nil, hscore]
    norm_num
  constructor
  · unfold select_parents
    rw [hpool]
    simp [hb]
  · norm_num [c6_s1, c6_s2]

/-- Codons of parent B not already present in the offspring (which at that
point holds exactly A's codons) — weaver_engine.reproduce, unique_b_codons. -/
def unique_b_codons (aCodons bCodons : List String) : List String :=
  bCodons.filter (fun c => decide (c ∉ aCodons))

/-- Number of B-codons to inherit: int(len(unique_b_codons) * 0.5) with the
default crossover_rate of 0.5, i.e. the integer floor of half. -/
def num_to_inherit (aCodons bCodons : List String) : ℕ :=
  (unique_b_codons aCodons bCodons).length / 2

/-- Offspring codons before mutation: all of A's codons followed by the
random.sample-selected subset of B's unique codons (injected as sampled). -/
def offspring_codons_premutation (aCodons sampled : List String) : List String :=
  aCodons ++ sampled

/-- Codon mutation table (weaver_engine.WeaverEngine.codon_mutations,
transcribed byte-for-byte including its mojibake F and Psi keys). -/
def codon_mutations : List (String × List String) :=
  [("E:SER", ["E:JOY", "E:AWE", "E:SAD"]),
   ("E:JOY", ["E:SER", "E:AWE"]),
   ("E:AWE", ["E:JOY", "E:SER", "E:FEA"]),
   ("E:SAD", ["E:SER", "E:FEA"]),
   ("E:ANG", ["E:FEA", "E:AWE"]),
   ("E:FEA", ["E:ANG", "E:SAD"]),
   ("T:STA", ["T:CYC", "T:DEC"]),
   ("T:LIN", ["T:ERU", "T:CYC"]),
   ("T:CYC", ["T:STA", "T:LIN"]),
   ("T:ERU", ["T:LIN", "T:DEC"]),
   ("T:DEC", ["T:STA", "T:ERU"]),
   ("F:Œî!", ["F:‚àû", "F:‚ïê‚ïê‚ñ∂"]),
   ("F:‚àû", ["F:‚âà‚âà", "F:Œî!"]),
   ("F:‚ïê‚ïê‚ñ∂", ["F:Œî!", "F:‚âà‚âà"]),
   ("F:‚âà‚âà", ["F:‚àû", "F:‚ïê‚ïê‚ñ∂"]),
   ("Œ®:ALR", ["Œ®:EMR", "Œ®:MED"]),
   ("Œ®:DRM", ["Œ®:MED", "Œ®:EMR"]),
   ("Œ®:MED", ["Œ®:ALR", "Œ®:DRM"]),
   ("Œ®:EMR", ["Œ®:ALR", "Œ®:DRM"])]

/-- Embedding of WeaverEngine._mutate_codons with the random draws injected:
mutateAt i models random.random() < mutation_rate for the i-th codon (always
false when the rate is 0), pick models random.choice among the table's
alternatives.  Each codon maps to exactly one output codon; codons absent
from the table never mutate. -/
def mutate_from (mutateAt : ℕ → Bool) (pick : List String → String) :
    ℕ → List String → List String
  | _, [] => []
  | i, c :: cs =>
    (if mutateAt i then
      match (codon_mutations.find? (fun p => p.1 == c)).map (fun p => p.2) with
      | some alts => pick alts
      | none => c
    else c) :: mutate_from mutateAt pick (i + 1) cs

/-- WeaverEngine._mutate_codons over the whole codon list. -/
def mutate_codons (mutateAt : ℕ → Bool) (pick : List String → String)
    (codons : List String) : List String :=
  mutate_from mutateAt pick 0 codons

/-- Offspring codons of reproduce: A's codons plus the sampled B subset, then
mutation. -/
def reproduce_codons (mutateAt : ℕ → Bool) (pick : List String → String)
    (aCodons sampled : List String) : List String :=
  mutate_codons mutateAt pick (offspring_codons_premutation aCodons sampled)

theorem mutate_from_length (mutateAt : ℕ → Bool) (pick : List String → String) :
    ∀ (i : ℕ) (cs : List String), (mutate_from mutateAt pick i cs).length = cs.length := by
  intro i cs
  induction cs generalizing i with
  | nil => rfl
  | cons c cs ih => simp [mutate_from, ih]

theorem mutate_from_rate_zero (pick : List String → String) :
    ∀ (i : ℕ) (cs : List String), mutate_from (fun _ => false) pick i cs = cs := by
  intro i cs
  induction cs generalizing i with
  | nil => rfl
  | cons c cs ih => simp [mutate_from, ih]

theorem mutate_codons_length (mutateAt : ℕ → Bool) (pick : List String → String)
    (codons : List String) : (mutate_codons mutateAt pick codons).length = codons.length :=
  mutate_from_length mutateAt pick 0 codons

theorem mutate_codons_rate_zero (pick : List String → String) (codons : List String) :
    mutate_codons (fun _ => false) pick codons = codons :=
  mutate_from_rate_zero pick 0 codons

/-- C7: the offspring codon list built by reproduce, taken before mutation,
contains every codon of parent A; and with the mutation rate forced to 0
(every per-codon draw false), on parents with codon lists [E:SER, T:STA] and
[E:SER, T:LIN, C:MOD] and any random.sample selection from B's unique codons,
the offspring codons contain {E:SER, T:STA} and are contained in
{E:SER, T:STA, T:LIN, C:MOD}. -/
theorem reproduce_crossover_superset :
    (∀ aCodons sampled : List String, ∀ c ∈ aCodons,
        c ∈ offspring_codons_premutation aCodons sampled) ∧
    (∀ sampled : List String, ∀ pick : List String → String,
      sampled.Sublist (unique_b_codons ["E:SER", "T:STA"] ["E:SER", "T:LIN", "C:MOD"]) →
      (∀ c ∈ (["E:SER", "T:STA"] : List String),
          c ∈ reproduce_codons (fun _ => false) pick ["E:SER", "T:STA"] sampled) ∧
      (∀ c ∈ reproduce_codons (fun _ => false) pick ["E:SER", "T:STA"] sampled,
          c ∈ (["E:SER", "T:STA", "T:LIN", "C:MOD"] : List String))) := by
  constructor
  · intro a s c hc
    exact List.mem_append_left _ hc
  · intro sampled pick hsub
    rw [reproduce_codons, mutate_codons_rate_zero]
    constructor
    · intro c hc
      exact List.mem_append_left _ hc
    · intro c hc
      rcases List.mem_append.mp hc with hc | hc
      · simp only [List.mem_cons, List.not_mem_nil, or_false] at hc
        rcases hc with rfl | rfl <;> simp
      · have h1 : c ∈ unique_b_codons ["E:SER", "T:STA"] ["E:SER", "T:LIN", "C:MOD"] :=
          hsub.subset hc
        have h2 : c ∈ (["E:SER", "T:LIN", "C:MOD"] : List String) :=
          List.mem_of_mem_filter h1
        simp only [List.mem_cons, List.not_mem_nil, or_false] at h2
        rcases h2 with rfl | rfl | rfl <;> simp

/-- Witness for reproduce_crossover_superset with the sample fixed to
[T:LIN]. -/
theorem reproduce_crossover_superset_witness :
    (∀ c ∈ (["E:SER", "T:STA"] : List String),
        c ∈ reproduce_codons (fun _ => false) (fun _ => "")
          ["E:SER", "T:STA"] ["T:LIN"]) ∧
    (∀ c ∈ reproduce_codons (fun _ => false) (fun _ => "")
        ["E:SER", "T:STA"] ["T:LIN"],
      c ∈ (["E:SER", "T:STA", "T:LIN", "C:MOD"] : List String)) :=
  reproduce_crossover_superset.2 ["T:LIN"] (fun _ => "") (by decide)

/-- C10: mutation never adds or removes codons (it is 1-to-1 positionally);
random.sample's contract fixes the sampled length at
min(num_to_inherit, len(unique_b)) = floor(0.5·u) where u is the count of
B-codons absent from A; hence the offspring codon count is always
len(A.codons) + floor(0.5·u), and in particular u = 1 inherits zero
B-codons. -/
theorem reproduce_codon_count :
    (∀ mutateAt : ℕ → Bool, ∀ pick : List String → String, ∀ codons : List String,
      (mutate_codons mutateAt pick codons).length = codons.length) ∧
    (∀ aCodons bCodons : List String,
      min (num_to_inherit aCodons bCodons) (unique_b_codons aCodons bCodons).length
        = (unique_b_codons aCodons bCodons).length / 2) ∧
    (∀ aCodons bCodons sampled : List String,
      ∀ mutateAt : ℕ → Bool, ∀ pick : List String → String,
      sampled.length = num_to_inherit aCodons bCodons →
      (reproduce_codons mutateAt pick aCodons sampled).length
        = aCodons.length + (unique_b_codons aCodons bCodons).length / 2) ∧
    (∀ aCodons bCodons : List String,
      (unique_b_codons aCodons bCodons).length = 1 →
      num_to_inherit aCodons bCodons = 0) := by
  refine ⟨fun m p c => mutate_codons_length m p c, ?_, ?_, ?_⟩
  · intro a b
    exact min_eq_left (Nat.div_le_self _ _)
  · intro a b sampled m p hlen
    rw [reproduce_codons, mutate_codons_length, offspring_codons_premutation,
        List.length_append, hlen, num_to_inherit]
  · intro a b h
    rw [num_to_inherit, h]

/-- Witness for reproduce_codon_count: the codon-count conjunct at the
scenario parents with sample [T:LIN] (u = 2, floor(0.5·2) = 1). -/
theorem reproduce_codon_count_witness :
    (reproduce_codons (fun _ => false) (fun _ => "")
        ["E:SER", "T:STA"] ["T:LIN"]).length
      = (["E:SER", "T:STA"] : List String).length
        + (unique_b_codons ["E:SER", "T:STA"] ["E:SER", "T:LIN", "C:MOD"]).length / 2 :=
  reproduce_codon_count.2.2.1 ["E:SER", "T:STA"] ["E:SER", "T:LIN", "C:MOD"]
    ["T:LIN"] (fun _ => false) (fun _ => "") (by decide)

/-- Structured filter condition built from the query analysis
(conversation_cortex_v2._build_where_filters). -/
inductive WhereCond where
  | projEq : String → WhereCond
  | actEq : String → WhereCond
  | tsGte : ℚ → WhereCond
  | tsLt : ℚ → WhereCond
deriving DecidableEq, Repr

/-- ChromaDB where clause: a single condition, or an $and of several. -/
inductive WhereClause where
  | single : WhereCond → WhereClause
  | conj : List WhereCond → WhereClause
deriving DecidableEq, Repr

/-- Oracle analysis of a query (groq_compiler.analyze_query result fields
read by _smart_recall). -/
structure QueryAnalysis where
  project : Option String
  activity : Option String
  time_hint : String
  refined_query : Option String
deriving DecidableEq, Repr

/-- Embedding of _build_where_filters: equality conditions for the present
(truthy, i.e. nonempty) project and activity plus a 7-day timestamp window
for time_hint recent/old; None when no condition applies; a single condition
is returned bare, several are wrapped in $and. -/
def build_where_filters (now : ℚ) (a : QueryAnalysis) : Option WhereClause :=
  match (match a.project with
         | some p => if p = "" then [] else [WhereCond.projEq p]
         | none => []) ++
        (match a.activity with
         | some act => if act = "" then [] else [WhereCond.actEq act]
         | none => []) ++
        (if a.time_hint = "recent" then [WhereCond.tsGte (now - 7 * 24 * 3600)]
         else if a.time_hint = "old" then [WhereCond.tsLt (now - 7 * 24 * 3600)]
         else []) with
  | [] => none
  | [c] => some (WhereClause.single c)
  | cs => some (WhereClause.conj cs)

/-- Re-rank-and-truncate tail of _smart_recall: when more than one memory was
fetched, re-rank via the oracle, keeping the fetched order on oracle failure;
then truncate to n. -/
def rerank_step {M : Type} (rerank : List M → Except Unit (List M)) (n : ℕ)
    (mems : List M) : List M :=
  (if 1 < mems.length then
    match rerank mems with
    | .ok m => m
    | .error _ => mems
  else mems).take n

/-- Embedding of recall(smart=True) → _smart_recall with the external ports
injected: analyze is the oracle analysis (none models analyze_query raising,
which falls back to basic recall); store k f is the collection query for k
candidates under optional filter f, with .error modelling a raised store
exception; rerank is the re-rank oracle.  The store is deterministic per
(count, filter) pair, as one fixed store snapshot.  The second component
records the store calls made, in order, by their filter argument.  An .error
first component models an exception propagating out of recall — the
except-branch unfiltered query of the Python source is not itself guarded. -/
def smart_recall_calls {M : Type} (analyze : Option QueryAnalysis)
    (store : ℕ → Option WhereClause → Except Unit (List M))
    (rerank : List M → Except Unit (List M)) (now : ℚ) (n : ℕ) :
    Except Unit (List M) × List (Option WhereClause) :=
  match analyze with
  | none => (store n none, [none])
  | some a =>
    match build_where_filters now a with
    | some f =>
      match store (min (n * 3) 20) (some f) with
      | .ok r =>
        if r.length < 2 then
          match store (min (n * 3) 20) none with
          | .ok r2 => (.ok (rerank_step rerank n r2), [some f, none])
          | .error _ =>
            match store (min (n * 3) 20) none with
            | .ok r3 => (.ok (rerank_step rerank n r3), [some f, none, none])
            | .error e => (.error e, [some f, none, none])
        else (.ok (rerank_step rerank n r), [some f])
      | .error _ =>
        match store (min (n * 3) 20) none with
        | .ok r2 => (.ok (rerank_step rerank n r2), [some f, none])
        | .error e => (.error e, [some f, none])
    | none =>
      match store (min (n * 3) 20) none with
      | .ok r => (.ok (rerank_step rerank n r), [none])
      | .error _ =>
        match store (min (n * 3) 20) none with
        | .ok r2 => (.ok (rerank_step rerank n r2), [none, none])
        | .error e => (.error e, [none, none])

/-- C5 counterexample: a smart recall whose filtered query errors and whose
single unfiltered retry also errors ends in Except.error — a store exception
propagates out of recall — instead of giving the caller an empty result set
as the claim states. -/
theorem smart_recall_error_counterexample :
    smart_recall_calls (some ⟨some "p", none, "any", none⟩)
      (fun _ _ => (.error () : Except Unit (List ℕ))) (fun m => .ok m) 0 5
      = (.error (), [some (.single (.projEq "p")), none]) ∧
    (Except.error () : Except Unit (List ℕ)) ≠ .ok [] := by
  constructor
  · rfl
  · intro h
    exact Except.noConfusion h

/-- C5 amended: when the filtered query errors, _smart_recall retries exactly
once without filters and returns that retry's outcome, the error propagating
out of recall if the retry fails; when the filtered query succeeds with fewer
than 2 hits, it retries without filters — once when the retry succeeds,
a second time when that retry raises — and a store error on the final
unfiltered attempt propagates out of recall as an exception, not as an empty
result set. -/
theorem smart_recall_retry_amended {M : Type} :
    ∀ (a : QueryAnalysis) (store : ℕ → Option WhereClause → Except Unit (List M))
      (rerank : List M → Except Unit (List M)) (now : ℚ) (n : ℕ) (f : WhereClause),
      build_where_filters now a = some f →
      (store (min (n * 3) 20) (some f) = .error () →
        smart_recall_calls (some a) store rerank now n
          = (match store (min (n * 3) 20) none with
             | .ok r2 => (.ok (rerank_step rerank n r2), [some f, none])
             | .error e => (.error e, [some f, none]))) ∧
      (∀ r : List M, store (min (n * 3) 20) (some f) = .ok r → r.length < 2 →
        (∀ r2 : List M, store (min (n * 3) 20) none = .ok r2 →
          smart_recall_calls (some a) store rerank now n
            = (.ok (rerank_step rerank n r2), [some f, none])) ∧
        (store (min (n * 3) 20) none = .error () →
          smart_recall_calls (some a) store rerank now n
            = (.error (), [some f, none, none]))) := by
  intro a store rerank now n f hf
  constructor
  · intro herr
    simp only [smart_recall_calls, hf, herr]
  · intro r hok hlen
    constructor
    · intro r2 h2
      simp only [smart_recall_calls, hf, hok, hlen, if_true, h2]
    · intro h2
      simp only [smart_recall_calls, hf, hok, hlen, if_true, h2]

/-- Witness for smart_recall_retry_amended: a concrete store whose filtered
query errors and whose unfiltered query returns one hit. -/
theorem smart_recall_retry_amended_witness :
    smart_recall_calls (some ⟨some "p", none, "any", none⟩)
      (fun _ f => match f with
        | some _ => (.error () : Except Unit (List ℕ))
        | none => .ok [7]) (fun m => .ok m) 0 5
      = (match (fun (_ : ℕ) (f : Option WhereClause) => match f with
           | some _ => (.error () : Except Unit (List ℕ))
           | none => .ok [7]) (min (5 * 3) 20) none with
         | .ok r2 => (.ok (rerank_step (fun m => .ok m) 5 r2),
                      [some (.single (.projEq "p")), none])
         | .error e => (.error e, [some (.single (.projEq "p")), none])) :=
  (smart_recall_retry_amended ⟨some "p", none, "any", none⟩
    (fun _ f => match f with
      | some _ => (.error () : Except Unit (List ℕ))
      | none => .ok [7]) (fun m => .ok m) 0 5
    (.single (.projEq "p")) rfl).1 rfl
